import Mathlib

/-!
Verification of `ompl/base/src/ProjectionEvaluator.cpp`.

Shallow embedding of the two components of the file:

* `ProjectionMatrix` (lines 47-125): random construction of an (intended)
  orthonormal projection matrix via in-place Gram-Schmidt over `std::valarray`
  rows, an optional scaling pass guarded against near-zero scale factors, and
  application of the matrix (`project`).
* `ProjectionEvaluator` (lines 127-223): cell-dimension configuration,
  validation, stochastic inference of cell dimensions, and conversion of a
  Euclidean projection to integer grid coordinates.

The numerically exact parts (Gram-Schmidt) are modelled over `ℝ`; all the
discrete / configuration logic is modelled over `ℚ` (exact stand-in for IEEE
doubles) so that theorems can be evaluated on concrete inputs.  Thrown C++
exceptions are modelled with `Except` / `Option` error values.
-/

namespace OmplProj

/-- Machine epsilon of an IEEE-754 double, the exact value of
`std::numeric_limits<double>::epsilon()`, namely `2^-52`. -/
def machEps : ℚ := 1 / 2 ^ 52

/-! ### Gram-Schmidt pass of `ProjectionMatrix::ComputeRandom` (lines 47-70)

The draws of `rng.gaussian01()` are abstracted as a stream `g : ℕ → ℝ`,
consumed in row-major order.  Rows are functions `Fin fromDim → ℝ`, matching
the `std::valarray<double>` pointwise arithmetic. -/

/-- A matrix row of length `n` (a `std::valarray<double>` of size `n`). -/
abbrev Vec (n : ℕ) := Fin n → ℝ

/-- The sum `(a * b).sum()` of the pointwise product of two rows. -/
def dotp {n : ℕ} (a b : Vec n) : ℝ := ∑ j, a j * b j

/-- One in-place subtraction `row -= (row * prevRow).sum() * prevRow`
(line 66). -/
def subProj {n : ℕ} (r p : Vec n) : Vec n := r - dotp r p • p

/-- The normalization `row /= sqrt((row * row).sum())` (line 69). -/
noncomputable def normalizeRow {n : ℕ} (r : Vec n) : Vec n :=
  (Real.sqrt (dotp r r))⁻¹ • r

/-- Processing of one row `i ≥ 1` of the loop at lines 59-70: subtract, in
order, the component along every earlier row of the matrix (those rows have
already been updated in place, which `done` records), then normalize. -/
noncomputable def gsStep {n : ℕ} (done : List (Vec n)) (r : Vec n) : Vec n :=
  normalizeRow (done.foldl subProj r)

/-- The loop at lines 59-70, processing the remaining rows one at a time;
`done` holds the rows `0, …, i-1` as they stand in the matrix when row `i`
is processed (row `0` raw, rows `1, …, i-1` already processed). -/
noncomputable def gsGo {n : ℕ} (done : List (Vec n)) : List (Vec n) → List (Vec n)
  | [] => []
  | r :: rest => gsStep done r :: gsGo (done ++ [gsStep done r]) rest

/-- The whole Gram-Schmidt pass: the loop at line 59 starts at `i = 1`, so
row `0` is never touched and later rows subtract against it as it is. -/
noncomputable def gramSchmidtRows {n : ℕ} : List (Vec n) → List (Vec n)
  | [] => []
  | r0 :: rest => r0 :: gsGo [r0] rest

/-- Lines 51-57: the raw `to × from` matrix of normal draws, row-major. -/
def rawRows (g : ℕ → ℝ) (fromDim toDim : ℕ) : List (Vec fromDim) :=
  (List.range toDim).map fun i => fun j => g (i * fromDim + j.val)

/-- `ComputeRandom` before the optional scaling step (lines 47-70). -/
noncomputable def ComputeRandomUnscaled (g : ℕ → ℝ) (fromDim toDim : ℕ) :
    List (Vec fromDim) :=
  gramSchmidtRows (rawRows g fromDim toDim)

/-- Nonzero-residual side condition for the division at line 69: the vector
that remains after the subtractions of row `i` must have nonzero norm
(for genuinely random Gaussian draws this holds almost surely; if it fails
the C++ divides by zero). -/
def gsResidOk {n : ℕ} (done : List (Vec n)) : List (Vec n) → Prop
  | [] => True
  | r :: rest => dotp (done.foldl subProj r) (done.foldl subProj r) ≠ 0 ∧
      gsResidOk (done ++ [gsStep done r]) rest

/-- `gsResidOk` for a whole matrix (row `0` is not processed). -/
def ResidOk {n : ℕ} : List (Vec n) → Prop
  | [] => True
  | r0 :: rest => gsResidOk [r0] rest

/-- A list of rows that is orthonormal: each row of unit self dot product,
distinct rows with dot product zero. -/
def ONRows {n : ℕ} (P : List (Vec n)) : Prop :=
  (∀ p ∈ P, dotp p p = 1) ∧ P.Pairwise fun a b => dotp a b = 0

/-- A concrete draw stream for a `2 × 2` matrix: raw row `0` is `(2, 0)`
(not unit norm) and raw row `1` is `(1, 1)`. -/
def cexDraws : ℕ → ℝ := fun k => if k = 0 then 2 else if k = 1 then 0 else 1

/-- A concrete draw stream for a `3 × 3` matrix: the identity rows. -/
def wDraws : ℕ → ℝ := fun k => if k = 0 ∨ k = 4 ∨ k = 8 then 1 else 0

/-! ### Scaling pass of `ProjectionMatrix::ComputeRandom` (lines 72-82)

The pass only depends on `from`, `to` and the scale vector, so it is modelled
over `ℚ` on an arbitrary row-list.  The thrown
`Exception("Scaling factor must be non-zero")` is the `Except.error`.
Note the C++ indexes the scale vector by the *row* index `i < to` even though
the vector has length `from`; for `to > from` that is an out-of-bounds read
(undefined behaviour), modelled here with `getD` — the theorems about this
pass therefore restrict to `to ≤ from`. -/

/-- Lines 75-81 for a single row `i`: the guard `fabs(scale[i]) < epsilon`
is tested on each inner iteration (hence not at all when `from = 0`), and on
success every entry of the row is divided by `scale[i]`. -/
def scaleCheckRow (fromDim : ℕ) (si : ℚ) (row : List ℚ) : Except Unit (List ℚ) :=
  if fromDim = 0 then .ok row
  else if |si| < machEps then .error ()
  else .ok (row.map fun x => x / si)

/-- The outer loop at lines 75-81, row index `i` counting up; an error in any
row aborts the whole computation (the C++ exception propagates out). -/
def scaleRows (fromDim : ℕ) (scale : List ℚ) : ℕ → List (List ℚ) → Except Unit (List (List ℚ))
  | _, [] => .ok []
  | i, row :: rest =>
    match scaleCheckRow fromDim (scale.getD i 0) row with
    | .error e => .error e
    | .ok r =>
      match scaleRows fromDim scale (i + 1) rest with
      | .error e => .error e
      | .ok rs => .ok (r :: rs)

/-- Lines 72-82: the scaling pass runs exactly when `scale.size() == from`;
otherwise the matrix is returned unchanged. -/
def applyScale (fromDim : ℕ) (scale : List ℚ) (mat : List (List ℚ)) :
    Except Unit (List (List ℚ)) :=
  if scale.length = fromDim then scaleRows fromDim scale 0 mat else .ok mat

/-! ### `ProjectionMatrix::project` (lines 102-113) -/

/-- The inner accumulation of line 110-111: `Σ_j from[j] * vec[j]`, `j`
ranging over the size of the matrix row. -/
def dotq (x y : List ℚ) : ℚ := (List.zipWith (fun a b => a * b) x y).sum

/-- `project`: output `i` is the dot product of the source with row `i`
(lines 102-113).  Pure: no state change, no failure path. -/
def project (mat : List (List ℚ)) (src : List ℚ) : List ℚ :=
  mat.map fun row => dotq src row

/-- Pointwise sum of two vectors (for stating linearity of `project`). -/
def addV (x y : List ℚ) : List ℚ := List.zipWith (fun a b => a + b) x y

/-- Scalar multiple of a vector (for stating linearity of `project`). -/
def smulV (c : ℚ) (x : List ℚ) : List ℚ := x.map fun a => c * a

/-! ### `ProjectionEvaluator` state and configuration (lines 127-196)

The evaluator state is its stored cell-dimension vector `cellDimensions_`;
the strategy dimension `getDimension()` is a parameter `dim`.  The external
manifold sampler composed with the abstract `project(State*, …)` of the
strategy is abstracted as a stream `samples : ℕ → ℕ → ℚ` giving the value of
projected sample `i` on axis `j`.  The constants
`magic::PROJECTION_EXTENTS_SAMPLES` and `magic::PROJECTION_DIMENSION_SPLITS`
live in `MagicConstants.h`, which is not part of this slice; modelled from
the spec: both are tunable positive constants, kept as parameters `N` and
`splits`. -/

/-- The mutable state of a `ProjectionEvaluator`: its `cellDimensions_`. -/
structure EvalState where
  cellDims : List ℚ
  deriving DecidableEq

/-- The two configuration exceptions of lines 135-138. -/
inductive CfgError where
  | InvalidDimension
  | CellDimensionMismatch
  deriving DecidableEq

/-- `checkCellDimensions` (lines 133-139): throws `InvalidDimension` when the
strategy dimension is zero, else `CellDimensionMismatch` when the stored
vector length differs from the dimension. -/
def checkCellDimensions (dim : ℕ) (s : EvalState) : Option CfgError :=
  if dim = 0 then some CfgError.InvalidDimension
  else if s.cellDims.length ≠ dim then some CfgError.CellDimensionMismatch
  else none

/-- `setCellDimensions` (lines 127-131): stores the supplied vector first,
then validates; the new state is kept even when validation throws. -/
def setCellDimensions (dim : ℕ) (_s : EvalState) (v : List ℚ) :
    EvalState × Option CfgError :=
  (⟨v⟩, checkCellDimensions dim ⟨v⟩)

/-- The update `if (low[j] > proj.values[j]) low[j] = proj.values[j]`
(lines 159-160); `none` is the initial `+infinity`, larger than everything. -/
def updLow (acc : Option ℚ) (p : ℚ) : Option ℚ :=
  match acc with
  | none => some p
  | some l => if p < l then some p else some l

/-- The update `if (high[j] < proj.values[j]) high[j] = proj.values[j]`
(lines 161-162); `none` is the initial `-infinity`, smaller than everything. -/
def updHigh (acc : Option ℚ) (p : ℚ) : Option ℚ :=
  match acc with
  | none => some p
  | some h => if h < p then some p else some h

/-- Running minimum of axis `j` over the first `N` projected samples
(lines 150-164, per-axis view of the interleaved loop). -/
def lows (samples : ℕ → ℕ → ℚ) (N j : ℕ) : Option ℚ :=
  (List.range N).foldl (fun acc i => updLow acc (samples i j)) none

/-- Running maximum of axis `j` over the first `N` projected samples. -/
def highs (samples : ℕ → ℕ → ℚ) (N j : ℕ) : Option ℚ :=
  (List.range N).foldl (fun acc i => updHigh acc (samples i j)) none

/-- The width `(high[j] - low[j]) / PROJECTION_DIMENSION_SPLITS` computed at
line 171, before the degenerate-axis substitution. -/
def inferredWidth (samples : ℕ → ℕ → ℚ) (N : ℕ) (splits : ℚ) (j : ℕ) : ℚ :=
  ((highs samples N j).getD 0 - (lows samples N j).getD 0) / splits

/-- `inferCellDimensions` (lines 141-181).  Returns the new state and the
list of axes for which the degenerate-axis warning of lines 175-177 was
emitted (the logging sink records one entry per emitted warning).  When
`dim = 0` the body is skipped entirely. -/
def inferCellDimensions (dim N : ℕ) (splits : ℚ) (samples : ℕ → ℕ → ℚ)
    (s : EvalState) : EvalState × List ℕ :=
  if dim = 0 then (s, [])
  else
    (⟨(List.range dim).map fun j =>
        if inferredWidth samples N splits j < machEps then 1
        else inferredWidth samples N splits j⟩,
     (List.range dim).filter fun j =>
        decide (inferredWidth samples N splits j < machEps))

/-- `setup` (lines 183-188): infer exactly when no cell dimensions are stored
and the dimension is positive, then always validate.  The middle component is
the warning log of the inference run (empty when no inference happened). -/
def setup (dim N : ℕ) (splits : ℚ) (samples : ℕ → ℕ → ℚ) (s : EvalState) :
    EvalState × List ℕ × Option CfgError :=
  let p := if s.cellDims.length = 0 ∧ 0 < dim
           then inferCellDimensions dim N splits samples s else (s, [])
  (p.1, p.2, checkCellDimensions dim p.1)

/-- `computeCoordinates` (lines 190-196):
`coord[i] = (int)floor(projection.values[i] / cellDimensions_[i])` for every
`i < getDimension()`, with no validation of any kind.  On an unconfigured
evaluator the C++ `cellDimensions_[i]` is an out-of-bounds read (undefined
behaviour), modelled with `getD`. -/
def computeCoordinates (dim : ℕ) (s : EvalState) (proj : List ℚ) : List ℤ :=
  (List.range dim).map fun i => ⌊proj.getD i 0 / s.cellDims.getD i 0⌋

/-! ### Helper lemmas -/

/-- Indexing a `map` over `range` inside its range. -/
theorem getD_range_map {α : Type} (f : ℕ → α) (dim j : ℕ) (h : j < dim) (d : α) :
    ((List.range dim).map f).getD j d = f j := by
  have hlen : j < ((List.range dim).map f).length := by simpa using h
  rw [List.getD_eq_getElem _ _ hlen, List.getElem_map, List.getElem_range]

/-- Claim C1 theorem: `computeCoordinates` floor-divides every axis, flooring
toward negative infinity; with unit cells, `-0.5, 0, 0.99, 1, 1.01` map to
`-1, 0, 0, 1, 1`. -/
theorem computeCoordinates_floor (dim : ℕ) (s : EvalState) (p : List ℚ)
    (hc : s.cellDims.length = dim) (hp : p.length = dim) :
    (computeCoordinates dim s p).length = dim ∧
    (∀ i, i < dim →
      (computeCoordinates dim s p).getD i 0 = ⌊p.getD i 0 / s.cellDims.getD i 0⌋) ∧
    computeCoordinates 5 ⟨[1, 1, 1, 1, 1]⟩ [-(1/2), 0, 99/100, 1, 101/100]
      = [-1, 0, 0, 1, 1] := by
  refine ⟨by simp [computeCoordinates], fun i hi => ?_, ?_⟩
  · exact getD_range_map _ dim i hi 0
  · show (List.range 5).map _ = _
    norm_num [List.range_succ, List.getD]

/-- Claim C1 witness: the theorem applied to a configured one-dimensional
evaluator with cell width `2` and projected value `-3`. -/
theorem computeCoordinates_floor_w :
    (computeCoordinates 1 ⟨[2]⟩ [-3]).getD 0 0 = ⌊(-3 : ℚ) / 2⌋ :=
  (computeCoordinates_floor 1 ⟨[2]⟩ [-3] rfl rfl).2.1 0 Nat.one_pos

/-- Claim C8 theorem: `checkCellDimensions` fails exactly when the dimension
is zero (`InvalidDimension`) or the stored vector length differs from the
dimension (`CellDimensionMismatch`); consequently `setCellDimensions` with a
wrong-length vector always fails. -/
theorem checkCellDimensions_spec (dim : ℕ) (s : EvalState) (v : List ℚ) :
    (checkCellDimensions dim s = none ↔ dim ≠ 0 ∧ s.cellDims.length = dim) ∧
    (checkCellDimensions dim s = some CfgError.InvalidDimension ↔ dim = 0) ∧
    (checkCellDimensions dim s = some CfgError.CellDimensionMismatch ↔
      dim ≠ 0 ∧ s.cellDims.length ≠ dim) ∧
    (v.length ≠ dim → (setCellDimensions dim s v).2 ≠ none) := by
  unfold setCellDimensions
  rcases eq_or_ne dim 0 with h0 | h0
  · subst h0; simp [checkCellDimensions]
  · rcases eq_or_ne s.cellDims.length dim with hl | hl <;>
      rcases eq_or_ne v.length dim with hv | hv <;>
      simp [checkCellDimensions, h0, hl, hv]

/-- Claim C8 witness: the theorem applied with dimension `2`, a stored vector
of the right length and a candidate vector of the wrong length. -/
theorem checkCellDimensions_spec_w :
    (setCellDimensions 2 ⟨[1, 1]⟩ [1, 2, 3]).2 ≠ none :=
  (checkCellDimensions_spec 2 ⟨[1, 1]⟩ [1, 2, 3]).2.2.2 (by norm_num)

/-- Claim C9 counterexample: on an evaluator with no stored cell dimensions
(unconfigured) and dimension `2`, `computeCoordinates` still produces two
coordinates; no configuration error is raised (the function has no error
path at all). -/
theorem computeCoordinates_unconfigured_cex :
    (computeCoordinates 2 ⟨[]⟩ [3, 5]).length = 2 := by
  simp [computeCoordinates]

/-- Claim C9 amended theorem: `computeCoordinates` performs no configuration
check whatsoever: for every state — configured or not — it totally returns a
list of `dim` coordinates, each the floor of the (possibly out-of-bounds,
undefined in the C++) division. -/
theorem computeCoordinates_no_check (dim : ℕ) (s : EvalState) (p : List ℚ) :
    (computeCoordinates dim s p).length = dim := by
  simp [computeCoordinates]

/-- Claim C10 theorem: `setCellDimensions` stores before validating, so on a
validation failure the state has already been replaced by the invalid
vector. -/
theorem setCellDimensions_not_atomic (dim : ℕ) (s : EvalState) (v : List ℚ)
    (herr : dim = 0 ∨ v.length ≠ dim) :
    (setCellDimensions dim s v).2 ≠ none ∧
    (setCellDimensions dim s v).1.cellDims = v ∧
    (v ≠ s.cellDims → (setCellDimensions dim s v).1 ≠ s) := by
  refine ⟨?_, rfl, fun hne hc => hne ?_⟩
  · unfold setCellDimensions checkCellDimensions
    rcases herr with h0 | hv
    · simp [h0]
    · rcases eq_or_ne dim 0 with h0 | h0 <;> simp [h0, hv]
  · calc v = (setCellDimensions dim s v).1.cellDims := rfl
      _ = s.cellDims := by rw [hc]

/-- Claim C10 witness: replacing a valid one-dimensional configuration by a
two-element vector fails validation yet overwrites the stored vector. -/
theorem setCellDimensions_not_atomic_w :
    (setCellDimensions 1 ⟨[5]⟩ [1, 2]).2 ≠ none ∧
    (setCellDimensions 1 ⟨[5]⟩ [1, 2]).1.cellDims = [1, 2] ∧
    ([1, 2] ≠ (⟨[5]⟩ : EvalState).cellDims → (setCellDimensions 1 ⟨[5]⟩ [1, 2]).1 ≠ ⟨[5]⟩) :=
  setCellDimensions_not_atomic 1 ⟨[5]⟩ [1, 2] (Or.inr (by norm_num))

/-- Unfolding of `dotq` on two nonempty vectors. -/
theorem dotq_cons_cons (a b : ℚ) (u w : List ℚ) :
    dotq (a :: u) (b :: w) = a * b + dotq u w := by
  simp [dotq]

/-- Additivity of the accumulated dot product, entrywise over the common
prefix. -/
theorem dotq_add (u : List ℚ) : ∀ v w : List ℚ, u.length = v.length →
    dotq (addV u v) w = dotq u w + dotq v w := by
  induction u with
  | nil =>
    intro v w h
    cases v with
    | nil => simp [dotq, addV]
    | cons b v => simp at h
  | cons a u ih =>
    intro v w h
    cases v with
    | nil => simp at h
    | cons b v =>
      cases w with
      | nil => simp [dotq, addV]
      | cons c w =>
        have hl : u.length = v.length := by simpa using h
        show dotq ((a + b) :: addV u v) (c :: w) = _
        rw [dotq_cons_cons, dotq_cons_cons, dotq_cons_cons, ih v w hl]
        ring

/-- Scalar multiples factor out of the accumulated dot product. -/
theorem dotq_smul (c : ℚ) (u : List ℚ) : ∀ w : List ℚ,
    dotq (smulV c u) w = c * dotq u w := by
  induction u with
  | nil => intro w; simp [dotq, smulV]
  | cons a u ih =>
    intro w
    cases w with
    | nil => simp [dotq, smulV]
    | cons b w =>
      show dotq ((c * a) :: smulV c u) (b :: w) = _
      rw [dotq_cons_cons, dotq_cons_cons, ih w]
      ring

/-- Lengths are preserved by the vector operations used to state linearity. -/
theorem addV_smulV_length (a b : ℚ) (x y : List ℚ) (h : x.length = y.length) :
    (addV (smulV a x) (smulV b y)).length = x.length := by
  simp [addV, smulV, h]

/-- Indexing a `map` inside its range, with arbitrary defaults. -/
theorem getD_map_lt {α β : Type} (f : α → β) (l : List α) (i : ℕ)
    (h : i < l.length) (d : α) (d2 : β) : (l.map f).getD i d2 = f (l.getD i d) := by
  have h2 : i < (l.map f).length := by simpa using h
  rw [List.getD_eq_getElem _ _ h2, List.getD_eq_getElem _ _ h, List.getElem_map]

/-- Claim C4 theorem: `project` writes exactly one output per matrix row,
output `i` being the dot product of the source with row `i`; it is a pure
function and exactly linear in the source. -/
theorem project_spec (mat : List (List ℚ)) (N : ℕ) (x y : List ℚ) (a b : ℚ)
    (hrow : ∀ r ∈ mat, r.length = N) (hx : x.length = N) (hy : y.length = N) :
    (project mat x).length = mat.length ∧
    (∀ i, i < mat.length → (project mat x).getD i 0 = dotq x (mat.getD i [])) ∧
    project mat (addV (smulV a x) (smulV b y))
      = addV (smulV a (project mat x)) (smulV b (project mat y)) := by
  refine ⟨by simp [project], fun i hi => ?_, ?_⟩
  · rw [show project mat x = mat.map fun row => dotq x row from rfl,
        getD_map_lt (fun row => dotq x row) mat i hi [] 0]
  · unfold project
    rw [show smulV a (mat.map fun row => dotq x row)
          = mat.map fun row => a * dotq x row by simp [smulV, List.map_map]]
    rw [show smulV b (mat.map fun row => dotq y row)
          = mat.map fun row => b * dotq y row by simp [smulV, List.map_map]]
    rw [show addV (mat.map fun row => a * dotq x row) (mat.map fun row => b * dotq y row)
          = mat.map fun row => a * dotq x row + b * dotq y row by
        simp [addV, List.zipWith_map_left, List.zipWith_map_right]]
    refine List.map_congr_left fun row _ => ?_
    rw [dotq_add (smulV a x) (smulV b y) row (by simp [smulV, hx, hy]),
        dotq_smul, dotq_smul]

/-- Claim C4 witness: the theorem applied to a concrete `2 × 2` matrix and
concrete source vectors. -/
theorem project_spec_w :
    (project [[1, 2], [3, 4]] [5, 7]).length = 2 ∧
    (∀ i, i < ([[1, 2], [3, 4]] : List (List ℚ)).length →
      (project [[1, 2], [3, 4]] [5, 7]).getD i 0
        = dotq [5, 7] (([[1, 2], [3, 4]] : List (List ℚ)).getD i [])) ∧
    project [[1, 2], [3, 4]] (addV (smulV 2 [5, 7]) (smulV 3 [1, 1]))
      = addV (smulV 2 (project [[1, 2], [3, 4]] [5, 7]))
             (smulV 3 (project [[1, 2], [3, 4]] [1, 1])) := by
  have h := project_spec [[1, 2], [3, 4]] 2 [5, 7] [1, 1] 2 3
    (by intro r hr; simp at hr; rcases hr with h | h <;> simp [h]) rfl rfl
  exact ⟨by simpa [project] using h.1, h.2.1, h.2.2⟩

/-- With `from = 0` the inner loop of the scaling pass has an empty body, so
the guard is never evaluated and no row can fail. -/
theorem scaleRows_zero_ok (scale : List ℚ) :
    ∀ (mat : List (List ℚ)) (k : ℕ), scaleRows 0 scale k mat ≠ Except.error () := by
  intro mat
  induction mat with
  | nil => intro k; simp [scaleRows]
  | cons row rest ih =>
    intro k
    simp only [scaleRows, scaleCheckRow, if_pos rfl]
    rcases hrec : scaleRows 0 scale (k + 1) rest with e | rs
    · cases e; exact absurd hrec (ih (k + 1))
    · simp

/-- The outer scaling loop starting at row `k` fails exactly when some later
row index hits a scale entry below machine epsilon (and the rows are
nonempty, i.e. `from ≠ 0`). -/
theorem scaleRows_error_iff (fromDim : ℕ) (scale : List ℚ) :
    ∀ (mat : List (List ℚ)) (k : ℕ),
    scaleRows fromDim scale k mat = Except.error () ↔
      fromDim ≠ 0 ∧ ∃ t, t < mat.length ∧ |scale.getD (k + t) 0| < machEps := by
  intro mat
  induction mat with
  | nil => intro k; simp [scaleRows]
  | cons row rest ih =>
    intro k
    rcases eq_or_ne fromDim 0 with h0 | h0
    · subst h0
      constructor
      · intro h; exact absurd h (scaleRows_zero_ok scale (row :: rest) k)
      · rintro ⟨h, -⟩; exact absurd rfl h
    · simp only [scaleRows, scaleCheckRow, if_neg h0]
      rcases lt_or_le |scale.getD k 0| machEps with hlt | hge
      · rw [if_pos hlt]
        constructor
        · intro _
          exact ⟨h0, 0, Nat.succ_pos _, by simpa using hlt⟩
        · intro _; rfl
      · rw [if_neg (not_lt.mpr hge)]
        rcases hrec : scaleRows fromDim scale (k + 1) rest with e | rs
        · cases e
          obtain ⟨-, t, ht, habs⟩ := (ih (k + 1)).mp hrec
          constructor
          · intro _
            exact ⟨h0, t + 1, by simpa using ht,
              by rw [show k + (t + 1) = k + 1 + t by omega]; exact habs⟩
          · intro _; rfl
        · constructor
          · intro hh; exact absurd hh (by simp)
          · rintro ⟨-, t, ht, habs⟩
            exfalso
            rcases t with - | t'
            · rw [Nat.add_zero] at habs
              exact absurd habs (not_lt.mpr hge)
            · have herr : scaleRows fromDim scale (k + 1) rest = Except.error () :=
                (ih (k + 1)).mpr ⟨h0, t', by simpa using ht,
                  by rw [show k + 1 + t' = k + (t' + 1) by omega]; exact habs⟩
              rw [hrec] at herr
              exact absurd herr (by simp)

/-- Claim C3 counterexample: with `from = 2`, `to = 1` and the scale vector
`[1, 10^-20]` — non-empty, of length `from`, containing an entry far below
machine epsilon — `ComputeRandom`'s scaling pass raises no error and returns
a matrix: only scale entries with index `< to` are ever examined. -/
theorem applyScale_missed_entry_cex :
    ([(1 : ℚ), 1 / 10 ^ 20] ≠ []) ∧
    ([(1 : ℚ), 1 / 10 ^ 20].length = 2) ∧
    |[(1 : ℚ), 1 / 10 ^ 20].getD 1 0| < machEps ∧
    applyScale 2 [1, 1 / 10 ^ 20] [[1, 1]] = Except.ok [[1, 1]] := by
  refine ⟨by simp, by simp, ?_, ?_⟩
  · simp only [List.getD_cons_succ, List.getD_cons_zero]
    rw [abs_of_pos (by norm_num)]
    norm_num [machEps]
  norm_num [applyScale, scaleRows, scaleCheckRow, machEps, List.getD]

/-- Claim C3 amended theorem: for `to ≤ from`, the scaling pass of
`ComputeRandom` fails (returning no matrix) iff the scale vector has length
`from` and some entry of index `< to` — the only entries examined, one per
produced row — has magnitude below machine epsilon. -/
theorem applyScale_error_iff (fromDim toDim : ℕ) (scale : List ℚ)
    (mat : List (List ℚ)) (hm : mat.length = toDim) (hto : toDim ≤ fromDim) :
    applyScale fromDim scale mat = Except.error () ↔
      scale.length = fromDim ∧ ∃ i, i < toDim ∧ |scale.getD i 0| < machEps := by
  unfold applyScale
  rcases eq_or_ne scale.length fromDim with hs | hs
  · rw [if_pos hs, scaleRows_error_iff]
    constructor
    · rintro ⟨-, t, ht, habs⟩
      exact ⟨hs, t, by omega, by simpa using habs⟩
    · rintro ⟨-, i, hi, habs⟩
      refine ⟨by omega, i, by omega, by simpa using habs⟩
  · rw [if_neg hs]
    constructor
    · intro h; exact absurd h (by simp)
    · rintro ⟨h, -⟩; exact absurd h hs

/-- Claim C3 witness for the amended theorem: with `from = to = 2` and scale
vector `[1, 10^-30]`, the pass does fail. -/
theorem applyScale_error_iff_w :
    applyScale 2 [1, 1 / 10 ^ 30] [[1, 1], [2, 3]] = Except.error () :=
  (applyScale_error_iff 2 2 [1, 1 / 10 ^ 30] [[1, 1], [2, 3]] rfl le_rfl).mpr
    ⟨rfl, 1, Nat.one_lt_two, by
      simp only [List.getD_cons_succ, List.getD_cons_zero]
      rw [abs_of_pos (by norm_num)]
      norm_num [machEps]⟩

/-- After at least one sample, the running minimum is the least sampled value
of the axis (and is attained). -/
theorem lows_min (samples : ℕ → ℕ → ℚ) (j : ℕ) :
    ∀ N, 0 < N → ∃ lo, lows samples N j = some lo ∧
      (∀ i, i < N → lo ≤ samples i j) ∧ (∃ i, i < N ∧ samples i j = lo) := by
  intro N
  induction N with
  | zero => intro h; exact absurd h (lt_irrefl 0)
  | succ n ih =>
    intro _
    have hstep : lows samples (n + 1) j = updLow (lows samples n j) (samples n j) := by
      unfold lows
      rw [List.range_succ, List.foldl_append, List.foldl_cons, List.foldl_nil]
    rcases Nat.eq_zero_or_pos n with h0 | hn
    · subst h0
      refine ⟨samples 0 j, ?_, ?_, 0, Nat.one_pos, rfl⟩
      · rw [hstep]; rfl
      · intro i hi
        interval_cases i
        exact le_refl _
    · obtain ⟨lo, heq, hle, i0, hi0, hat⟩ := ih hn
      rw [hstep, heq]
      unfold updLow
      rcases lt_or_le (samples n j) lo with hlt | hge
      · refine ⟨samples n j, by simp [hlt], fun i hi => ?_, n, Nat.lt_succ_self n, rfl⟩
        rcases Nat.lt_succ_iff_lt_or_eq.mp hi with h | h
        · exact le_of_lt (lt_of_lt_of_le hlt (hle i h))
        · subst h; exact le_refl _
      · refine ⟨lo, by simp [not_lt.mpr hge], fun i hi => ?_,
          i0, Nat.lt_succ_of_lt hi0, hat⟩
        rcases Nat.lt_succ_iff_lt_or_eq.mp hi with h | h
        · exact hle i h
        · subst h; exact hge

/-- After at least one sample, the running maximum is the greatest sampled
value of the axis (and is attained). -/
theorem highs_max (samples : ℕ → ℕ → ℚ) (j : ℕ) :
    ∀ N, 0 < N → ∃ hi, highs samples N j = some hi ∧
      (∀ i, i < N → samples i j ≤ hi) ∧ (∃ i, i < N ∧ samples i j = hi) := by
  intro N
  induction N with
  | zero => intro h; exact absurd h (lt_irrefl 0)
  | succ n ih =>
    intro _
    have hstep : highs samples (n + 1) j = updHigh (highs samples n j) (samples n j) := by
      unfold highs
      rw [List.range_succ, List.foldl_append, List.foldl_cons, List.foldl_nil]
    rcases Nat.eq_zero_or_pos n with h0 | hn
    · subst h0
      refine ⟨samples 0 j, ?_, ?_, 0, Nat.one_pos, rfl⟩
      · rw [hstep]; rfl
      · intro i hi
        interval_cases i
        exact le_refl _
    · obtain ⟨hi, heq, hle, i0, hi0, hat⟩ := ih hn
      rw [hstep, heq]
      unfold updHigh
      rcases lt_or_le hi (samples n j) with hlt | hge
      · refine ⟨samples n j, by simp [hlt], fun i hik => ?_, n, Nat.lt_succ_self n, rfl⟩
        rcases Nat.lt_succ_iff_lt_or_eq.mp hik with h | h
        · exact le_of_lt (lt_of_le_of_lt (hle i h) hlt)
        · subst h; exact le_refl _
      · refine ⟨hi, by simp [not_lt.mpr hge], fun i hik => ?_,
          i0, Nat.lt_succ_of_lt hi0, hat⟩
        rcases Nat.lt_succ_iff_lt_or_eq.mp hik with h | h
        · exact hle i h
        · subst h; exact hge

/-- The running minimum only reads the first `N` samples of its axis. -/
theorem lows_congr (samples samples2 : ℕ → ℕ → ℚ) (j : ℕ) :
    ∀ N, (∀ i, i < N → samples2 i j = samples i j) →
      lows samples2 N j = lows samples N j := by
  intro N
  induction N with
  | zero => intro _; rfl
  | succ n ih =>
    intro h
    unfold lows
    rw [List.range_succ, List.foldl_append, List.foldl_append,
        List.foldl_cons, List.foldl_cons, List.foldl_nil, List.foldl_nil]
    rw [show (List.range n).foldl (fun acc i => updLow acc (samples2 i j)) none
          = lows samples2 n j from rfl,
        show (List.range n).foldl (fun acc i => updLow acc (samples i j)) none
          = lows samples n j from rfl,
        ih (fun i hi => h i (Nat.lt_succ_of_lt hi)), h n (Nat.lt_succ_self n)]

/-- The running maximum only reads the first `N` samples of its axis. -/
theorem highs_congr (samples samples2 : ℕ → ℕ → ℚ) (j : ℕ) :
    ∀ N, (∀ i, i < N → samples2 i j = samples i j) →
      highs samples2 N j = highs samples N j := by
  intro N
  induction N with
  | zero => intro _; rfl
  | succ n ih =>
    intro h
    unfold highs
    rw [List.range_succ, List.foldl_append, List.foldl_append,
        List.foldl_cons, List.foldl_cons, List.foldl_nil, List.foldl_nil]
    rw [show (List.range n).foldl (fun acc i => updHigh acc (samples2 i j)) none
          = highs samples2 n j from rfl,
        show (List.range n).foldl (fun acc i => updHigh acc (samples i j)) none
          = highs samples n j from rfl,
        ih (fun i hi => h i (Nat.lt_succ_of_lt hi)), h n (Nat.lt_succ_self n)]

/-- Claim C5 theorem: for a positive dimension, `inferCellDimensions` tracks
per-axis running minima/maxima over exactly the fixed number `N` of projected
uniform samples (the result depends only on the first `N` samples), and
stores per axis the width `(max - min) / splits`, pre-substitution value
`inferredWidth`; with dimension zero it does nothing. -/
theorem inferCellDimensions_spec (dim N : ℕ) (splits : ℚ)
    (samples : ℕ → ℕ → ℚ) (s : EvalState) :
    (dim = 0 → inferCellDimensions dim N splits samples s = (s, [])) ∧
    (0 < dim → (inferCellDimensions dim N splits samples s).1.cellDims.length = dim) ∧
    (0 < N → ∀ j, j < dim → ∃ lo hi,
      lows samples N j = some lo ∧ highs samples N j = some hi ∧
      (∀ i, i < N → lo ≤ samples i j ∧ samples i j ≤ hi) ∧
      (∃ i, i < N ∧ samples i j = lo) ∧ (∃ i, i < N ∧ samples i j = hi) ∧
      inferredWidth samples N splits j = (hi - lo) / splits ∧
      (inferCellDimensions dim N splits samples s).1.cellDims.getD j 0 =
        (if inferredWidth samples N splits j < machEps then 1
         else inferredWidth samples N splits j)) ∧
    (∀ samples2, (∀ i, i < N → ∀ j, j < dim → samples2 i j = samples i j) →
      inferCellDimensions dim N splits samples2 s
        = inferCellDimensions dim N splits samples s) := by
  refine ⟨fun h => by simp [inferCellDimensions, h], fun h => ?_, fun hN j hj => ?_, ?_⟩
  · rw [inferCellDimensions, if_neg (Nat.pos_iff_ne_zero.mp h)]
    simp
  · obtain ⟨lo, hlo, hlole, hloat⟩ := lows_min samples j N hN
    obtain ⟨hi, hhi, hhile, hhiat⟩ := highs_max samples j N hN
    have hdim : dim ≠ 0 := by omega
    refine ⟨lo, hi, hlo, hhi, fun i hik => ⟨hlole i hik, hhile i hik⟩, hloat, hhiat, ?_, ?_⟩
    · unfold inferredWidth
      rw [hlo, hhi]
      rfl
    · rw [inferCellDimensions, if_neg hdim]
      exact getD_range_map _ dim j hj 0
  · intro samples2 h
    have hw : ∀ j, j < dim →
        inferredWidth samples2 N splits j = inferredWidth samples N splits j := by
      intro j hj
      unfold inferredWidth
      rw [lows_congr samples samples2 j N (fun i hi => h i hi j hj),
          highs_congr samples samples2 j N (fun i hi => h i hi j hj)]
    unfold inferCellDimensions
    rcases eq_or_ne dim 0 with h0 | h0
    · rw [if_pos h0, if_pos h0]
    · rw [if_neg h0, if_neg h0]
      have hmap : ((List.range dim).map fun j =>
            if inferredWidth samples2 N splits j < machEps then 1
            else inferredWidth samples2 N splits j)
          = (List.range dim).map fun j =>
            if inferredWidth samples N splits j < machEps then 1
            else inferredWidth samples N splits j :=
        List.map_congr_left fun j hjm => by rw [hw j (List.mem_range.mp hjm)]
      have hfil : ((List.range dim).filter fun j =>
            decide (inferredWidth samples2 N splits j < machEps))
          = (List.range dim).filter fun j =>
            decide (inferredWidth samples N splits j < machEps) :=
        List.filter_congr fun j hjm => by rw [hw j (List.mem_range.mp hjm)]
      rw [hmap, hfil]

/-- Claim C5 witness: the theorem applied with dimension `1`, two samples
`0, 1` on the single axis and split factor `1`. -/
theorem inferCellDimensions_spec_w :
    ∃ lo hi, lows (fun i _ => (i : ℚ)) 2 0 = some lo ∧
      highs (fun i _ => (i : ℚ)) 2 0 = some hi ∧
      (∀ i : ℕ, i < 2 → lo ≤ (i : ℚ) ∧ (i : ℚ) ≤ hi) ∧
      (∃ i : ℕ, i < 2 ∧ (i : ℚ) = lo) ∧ (∃ i : ℕ, i < 2 ∧ (i : ℚ) = hi) ∧
      inferredWidth (fun i _ => (i : ℚ)) 2 1 0 = (hi - lo) / 1 ∧
      (inferCellDimensions 1 2 1 (fun i _ => (i : ℚ)) ⟨[]⟩).1.cellDims.getD 0 0 =
        (if inferredWidth (fun i _ => (i : ℚ)) 2 1 0 < machEps then 1
         else inferredWidth (fun i _ => (i : ℚ)) 2 1 0) :=
  (inferCellDimensions_spec 1 2 1 (fun i _ => (i : ℚ)) ⟨[]⟩).2.2.1
    Nat.zero_lt_two 0 Nat.one_pos

/-- Claim C6 theorem: during inference, an axis whose computed width is below
machine epsilon gets stored width exactly `1` and exactly one warning; an
axis at or above epsilon keeps its computed width and gets no warning; in
particular an axis whose projected samples are all identical gets width `1`
and exactly one warning.  (The operation has no failure path at all.) -/
theorem inferCellDimensions_degenerate (dim N : ℕ) (splits : ℚ)
    (samples : ℕ → ℕ → ℚ) (s : EvalState) :
    ∀ j, j < dim →
    (inferredWidth samples N splits j < machEps →
      (inferCellDimensions dim N splits samples s).1.cellDims.getD j 0 = 1 ∧
      (inferCellDimensions dim N splits samples s).2.count j = 1) ∧
    (machEps ≤ inferredWidth samples N splits j →
      (inferCellDimensions dim N splits samples s).1.cellDims.getD j 0
        = inferredWidth samples N splits j ∧
      (inferCellDimensions dim N splits samples s).2.count j = 0) ∧
    ((∀ i, i < N → samples i j = samples 0 j) → 0 < N →
      (inferCellDimensions dim N splits samples s).1.cellDims.getD j 0 = 1 ∧
      (inferCellDimensions dim N splits samples s).2.count j = 1) := by
  intro j hj
  have hdim : dim ≠ 0 := by omega
  have hget : ∀ w : ℕ → ℚ, ((List.range dim).map fun j2 =>
      if inferredWidth samples N splits j2 < machEps then w j2
      else inferredWidth samples N splits j2).getD j 0
        = if inferredWidth samples N splits j < machEps then w j
          else inferredWidth samples N splits j :=
    fun w => getD_range_map _ dim j hj 0
  have hcount1 : inferredWidth samples N splits j < machEps →
      (inferCellDimensions dim N splits samples s).2.count j = 1 := by
    intro hlt
    rw [inferCellDimensions, if_neg hdim]
    show (List.count j (List.filter _ (List.range dim))) = 1
    rw [List.count_filter (by simpa using hlt)]
    exact List.count_eq_one_of_mem (List.nodup_range dim) (List.mem_range.mpr hj)
  have hcount0 : machEps ≤ inferredWidth samples N splits j →
      (inferCellDimensions dim N splits samples s).2.count j = 0 := by
    intro hge
    rw [inferCellDimensions, if_neg hdim]
    refine List.count_eq_zero_of_not_mem fun hmem => ?_
    rcases List.mem_filter.mp hmem with ⟨-, hdec⟩
    exact absurd (of_decide_eq_true hdec) (not_lt.mpr hge)
  refine ⟨fun hlt => ?_, fun hge => ?_, fun hconst hN => ?_⟩
  · refine ⟨?_, hcount1 hlt⟩
    rw [inferCellDimensions, if_neg hdim]
    show ((List.range dim).map _).getD j 0 = 1
    rw [hget (fun _ => 1), if_pos hlt]
  · refine ⟨?_, hcount0 hge⟩
    rw [inferCellDimensions, if_neg hdim]
    show ((List.range dim).map _).getD j 0 = _
    rw [hget (fun _ => 1), if_neg (not_lt.mpr hge)]
  · have hw : inferredWidth samples N splits j = 0 := by
      obtain ⟨lo, hlo, -, i1, hi1, hat1⟩ := lows_min samples j N hN
      obtain ⟨hi, hhi, -, i2, hi2, hat2⟩ := highs_max samples j N hN
      unfold inferredWidth
      rw [hlo, hhi]
      have : hi = lo := by
        rw [← hat1, ← hat2, hconst i1 hi1, hconst i2 hi2]
      rw [this]
      simp
    have hlt : inferredWidth samples N splits j < machEps := by
      rw [hw]; norm_num [machEps]
    refine ⟨?_, hcount1 hlt⟩
    rw [inferCellDimensions, if_neg hdim]
    show ((List.range dim).map _).getD j 0 = 1
    rw [hget (fun _ => 1), if_pos hlt]

/-- Claim C6 witness: dimension `2`, three constant samples on axis `0`
(degenerate: width `1`, one warning) and spread samples on axis `1`. -/
theorem inferCellDimensions_degenerate_w :
    (inferCellDimensions 2 3 1 (fun i j => if j = 0 then (5 : ℚ) else i) ⟨[]⟩).1.cellDims.getD 0 0 = 1 ∧
    (inferCellDimensions 2 3 1 (fun i j => if j = 0 then (5 : ℚ) else i) ⟨[]⟩).2.count 0 = 1 :=
  (inferCellDimensions_degenerate 2 3 1 (fun i j => if j = 0 then (5 : ℚ) else i) ⟨[]⟩
      0 Nat.zero_lt_two).2.2 (fun i _ => rfl) (Nat.zero_lt_succ 2)

/-- Success of `checkCellDimensions`, characterized (helper shared by the
`setup` proofs). -/
theorem checkCellDimensions_none_iff (dim : ℕ) (s : EvalState) :
    checkCellDimensions dim s = none ↔ dim ≠ 0 ∧ s.cellDims.length = dim := by
  unfold checkCellDimensions
  rcases eq_or_ne dim 0 with h0 | h0
  · simp [h0]
  · rcases eq_or_ne s.cellDims.length dim with hl | hl <;> simp [h0, hl]

/-- Claim C7 theorem: `setup` infers exactly when no cell dimensions are
stored and the dimension is positive, then always validates; once a state
validates (after a successful `setup` or an explicit configuration), any
further `setup` — with any sampler, sample count or split factor — performs
no inference and returns the state unchanged. -/
theorem setup_spec (dim N : ℕ) (splits : ℚ) (samples : ℕ → ℕ → ℚ)
    (s : EvalState) :
    (¬(s.cellDims.length = 0 ∧ 0 < dim) →
      setup dim N splits samples s = (s, [], checkCellDimensions dim s)) ∧
    (s.cellDims.length = 0 → 0 < dim →
      (setup dim N splits samples s).1 = (inferCellDimensions dim N splits samples s).1 ∧
      (setup dim N splits samples s).2.1 = (inferCellDimensions dim N splits samples s).2) ∧
    ((setup dim N splits samples s).2.2
        = checkCellDimensions dim (setup dim N splits samples s).1) ∧
    (checkCellDimensions dim s = none → setup dim N splits samples s = (s, [], none)) ∧
    ((setup dim N splits samples s).2.2 = none → ∀ N2 splits2 samples2,
      setup dim N2 splits2 samples2 (setup dim N splits samples s).1
        = ((setup dim N splits samples s).1, [], none)) := by
  have hskip : ∀ (s2 : EvalState) (N2 : ℕ) (splits2 : ℚ) (samples2 : ℕ → ℕ → ℚ),
      checkCellDimensions dim s2 = none →
      setup dim N2 splits2 samples2 s2 = (s2, [], none) := by
    intro s2 N2 splits2 samples2 hchk
    obtain ⟨hd0, hlen⟩ := (checkCellDimensions_none_iff dim s2).mp hchk
    have hcond : ¬(s2.cellDims.length = 0 ∧ 0 < dim) := by
      rintro ⟨hl0, -⟩; omega
    unfold setup
    rw [if_neg hcond]
    show (s2, ([] : List ℕ), checkCellDimensions dim s2) = (s2, [], none)
    rw [hchk]
  refine ⟨fun hcond => ?_, fun h1 h2 => ?_, ?_, hskip s N splits samples, fun hok => ?_⟩
  · unfold setup
    rw [if_neg hcond]
  · constructor <;> (unfold setup; rw [if_pos ⟨h1, h2⟩])
  · rfl
  · intro N2 splits2 samples2
    have hchk : checkCellDimensions dim (setup dim N splits samples s).1 = none := hok
    exact hskip _ N2 splits2 samples2 hchk

/-- Claim C7 witness: a first `setup` from the unconfigured state (inference
runs, the single inferred axis being degenerate gets width `1`), after which
a second `setup` with a different sampler, sample count and split factor
returns the same state, no warnings, no error. -/
theorem setup_spec_w :
    setup 1 7 9 (fun _ _ => (4 : ℚ))
        (setup 1 1 1 (fun i j => (i + j : ℚ)) ⟨[]⟩).1
      = ((setup 1 1 1 (fun i j => (i + j : ℚ)) ⟨[]⟩).1, [], none) :=
  (setup_spec 1 1 1 (fun i j => (i + j : ℚ)) ⟨[]⟩).2.2.2.2
    (by norm_num [setup, checkCellDimensions, inferCellDimensions])
    7 9 (fun _ _ => (4 : ℚ))

/-- The row dot product is symmetric. -/
theorem dotp_comm {n : ℕ} (a b : Vec n) : dotp a b = dotp b a := by
  unfold dotp
  exact Finset.sum_congr rfl fun j _ => mul_comm _ _

/-- The row dot product is additive in its left argument (for differences). -/
theorem dotp_sub_left {n : ℕ} (a b c : Vec n) :
    dotp (a - b) c = dotp a c - dotp b c := by
  unfold dotp
  rw [← Finset.sum_sub_distrib]
  exact Finset.sum_congr rfl fun j _ => by simp [sub_mul]

/-- Scalars factor out of the left argument of the row dot product. -/
theorem dotp_smul_left {n : ℕ} (c : ℝ) (a b : Vec n) :
    dotp (c • a) b = c * dotp a b := by
  unfold dotp
  rw [Finset.mul_sum]
  exact Finset.sum_congr rfl fun j _ => by simp [mul_assoc]

/-- A row's self dot product is a sum of squares, hence nonnegative. -/
theorem dotp_self_nonneg {n : ℕ} (a : Vec n) : 0 ≤ dotp a a :=
  Finset.sum_nonneg fun j _ => mul_self_nonneg _

/-- Effect of one in-place subtraction on a dot product. -/
theorem dotp_subProj_left {n : ℕ} (r p q : Vec n) :
    dotp (subProj r p) q = dotp r q - dotp r p * dotp p q := by
  unfold subProj
  rw [dotp_sub_left, dotp_smul_left]

/-- Subtracting the component along a *unit* row makes the result orthogonal
to that row — the step only works because `p` has unit norm. -/
theorem dotp_subProj_self {n : ℕ} (r p : Vec n) (hpp : dotp p p = 1) :
    dotp (subProj r p) p = 0 := by
  rw [dotp_subProj_left, hpp, mul_one, sub_self]

/-- Subtracting along a row orthogonal to `p` does not change the dot
product with `p`. -/
theorem foldl_subProj_preserve {n : ℕ} (p : Vec n) :
    ∀ (L : List (Vec n)) (r : Vec n), (∀ q ∈ L, dotp q p = 0) →
      dotp (L.foldl subProj r) p = dotp r p := by
  intro L
  induction L with
  | nil => intro r _; rfl
  | cons a L ih =>
    intro r h
    rw [List.foldl_cons, ih (subProj r a) fun q hq => h q (List.mem_cons_of_mem a hq),
        dotp_subProj_left, h a (List.mem_cons_self a L), mul_zero, sub_zero]

/-- After folding the subtractions over a list containing the unit row `p`,
followed only by rows orthogonal to `p`, the result is orthogonal to `p`. -/
theorem foldl_subProj_orth {n : ℕ} (p : Vec n) (L1 L2 : List (Vec n)) (r : Vec n)
    (hpp : dotp p p = 1) (h2 : ∀ q ∈ L2, dotp q p = 0) :
    dotp ((L1 ++ p :: L2).foldl subProj r) p = 0 := by
  rw [List.foldl_append, List.foldl_cons,
      foldl_subProj_preserve p L2 _ h2, dotp_subProj_self _ p hpp]

/-- Dot products against a normalized row. -/
theorem dotp_normalize_left {n : ℕ} (r q : Vec n) :
    dotp (normalizeRow r) q = (Real.sqrt (dotp r r))⁻¹ * dotp r q :=
  dotp_smul_left _ _ _

/-- A row of nonzero norm becomes a unit row after normalization. -/
theorem dotp_normalize_self {n : ℕ} (r : Vec n) (h : dotp r r ≠ 0) :
    dotp (normalizeRow r) (normalizeRow r) = 1 := by
  unfold normalizeRow
  rw [dotp_smul_left, dotp_comm r ((Real.sqrt (dotp r r))⁻¹ • r), dotp_smul_left,
      ← mul_assoc, ← mul_inv, Real.mul_self_sqrt (dotp_self_nonneg r), inv_mul_cancel₀ h]

/-- Subtracting along a row with dot product zero is the identity. -/
theorem subProj_of_dotp_eq_zero {n : ℕ} (r p : Vec n) (h : dotp r p = 0) :
    subProj r p = r := by
  unfold subProj
  rw [h, zero_smul, sub_zero]

/-- Normalizing an already-unit row is the identity. -/
theorem normalizeRow_of_unit {n : ℕ} (r : Vec n) (h : dotp r r = 1) :
    normalizeRow r = r := by
  unfold normalizeRow
  rw [h, Real.sqrt_one, inv_one, one_smul]

/-- The loop produces one processed row per remaining raw row. -/
theorem gsGo_length {n : ℕ} :
    ∀ (rest done : List (Vec n)), (gsGo done rest).length = rest.length := by
  intro rest
  induction rest with
  | nil => intro done; rfl
  | cons r rest ih => intro done; simp [gsGo, ih]

/-- Main induction for the Gram-Schmidt pass: if the already-processed rows
`P` (which do not include the raw row `0`) are orthonormal, then they remain
so after processing the remaining rows, *regardless of the raw row `0`*
sitting at the head of the in-place matrix. -/
theorem gsGo_on {n : ℕ} (r0 : Vec n) :
    ∀ (rest P : List (Vec n)), ONRows P → gsResidOk (r0 :: P) rest →
      ONRows (P ++ gsGo (r0 :: P) rest) := by
  intro rest
  induction rest with
  | nil => intro P hON _; simpa [gsGo] using hON
  | cons r rest ih =>
    intro P hON hres
    obtain ⟨hr, hres2⟩ := hres
    have horth : ∀ p ∈ P, dotp ((r0 :: P).foldl subProj r) p = 0 := by
      intro p hp
      obtain ⟨L1, L2, hPL⟩ := List.append_of_mem hp
      have hpp : dotp p p = 1 := hON.1 p hp
      have h2 : ∀ q ∈ L2, dotp q p = 0 := by
        intro q hq
        have hpair : List.Pairwise (fun a b => dotp a b = 0) (L1 ++ p :: L2) := by
          rw [← hPL]; exact hON.2
        have hcons := (List.pairwise_append.mp hpair).2.1
        rw [List.pairwise_cons] at hcons
        rw [dotp_comm]
        exact hcons.1 q hq
      rw [hPL, show r0 :: (L1 ++ p :: L2) = (r0 :: L1) ++ p :: L2 from by simp]
      exact foldl_subProj_orth p (r0 :: L1) L2 r hpp h2
    have hnorm : dotp (gsStep (r0 :: P) r) (gsStep (r0 :: P) r) = 1 :=
      dotp_normalize_self _ hr
    have hortho2 : ∀ p ∈ P, dotp (gsStep (r0 :: P) r) p = 0 := by
      intro p hp
      unfold gsStep
      rw [dotp_normalize_left, horth p hp, mul_zero]
    have hON2 : ONRows (P ++ [gsStep (r0 :: P) r]) := by
      constructor
      · intro p hp
        rcases List.mem_append.mp hp with h | h
        · exact hON.1 p h
        · rw [List.mem_singleton.mp h]; exact hnorm
      · rw [List.pairwise_append]
        refine ⟨hON.2, List.pairwise_singleton _ _, ?_⟩
        intro a ha b hb
        rw [List.mem_singleton.mp hb, dotp_comm]
        exact hortho2 a ha
    have hcons : (r0 :: P) ++ [gsStep (r0 :: P) r] = r0 :: (P ++ [gsStep (r0 :: P) r]) := by
      simp
    have hres3 : gsResidOk (r0 :: (P ++ [gsStep (r0 :: P) r])) rest := by
      rw [← hcons]; exact hres2
    have hrec := ih (P ++ [gsStep (r0 :: P) r]) hON2 hres3
    rw [List.append_assoc, List.singleton_append, ← hcons] at hrec
    exact hrec

/-- Claim C2 amended theorem: under the nonzero-residual side condition,
the matrix produced by the Gram-Schmidt pass of `ComputeRandom` has `toDim`
rows; row `0` is exactly its raw draws; every row `i ≥ 1` has exactly unit
norm and dot product exactly `0` with every row `j` satisfying `1 ≤ j < i`.
(Nothing is claimed against row `0`: see the counterexample.) -/
theorem ComputeRandom_rows_orthonormal (g : ℕ → ℝ) (fromDim toDim : ℕ)
    (hres : ResidOk (rawRows g fromDim toDim)) :
    (ComputeRandomUnscaled g fromDim toDim).length = toDim ∧
    (0 < toDim → (ComputeRandomUnscaled g fromDim toDim).getD 0 0
        = (rawRows g fromDim toDim).getD 0 0) ∧
    (∀ i, 1 ≤ i → i < toDim →
      dotp ((ComputeRandomUnscaled g fromDim toDim).getD i 0)
           ((ComputeRandomUnscaled g fromDim toDim).getD i 0) = 1) ∧
    (∀ i j, 1 ≤ j → j < i → i < toDim →
      dotp ((ComputeRandomUnscaled g fromDim toDim).getD i 0)
           ((ComputeRandomUnscaled g fromDim toDim).getD j 0) = 0) := by
  rcases Nat.eq_zero_or_pos toDim with h0 | hpos
  · subst h0
    refine ⟨by simp [ComputeRandomUnscaled, rawRows, gramSchmidtRows], ?_, ?_, ?_⟩
    · intro h; exact absurd h (lt_irrefl 0)
    · intro i h1 h2; exact absurd h2 (by omega)
    · intro i j h1 h2 h3; exact absurd h3 (by omega)
  · have hlenraw : (rawRows g fromDim toDim).length = toDim := by simp [rawRows]
    obtain ⟨r0, rest, hraw⟩ : ∃ r0 rest, rawRows g fromDim toDim = r0 :: rest := by
      cases hr : rawRows g fromDim toDim with
      | nil => rw [hr] at hlenraw; simp at hlenraw; omega
      | cons a l => exact ⟨a, l, rfl⟩
    have hM : ComputeRandomUnscaled g fromDim toDim = r0 :: gsGo [r0] rest := by
      unfold ComputeRandomUnscaled
      rw [hraw]
      rfl
    have hgres : gsResidOk [r0] rest := by
      rw [hraw] at hres
      exact hres
    have hON : ONRows (gsGo [r0] rest) := by
      have h := gsGo_on r0 rest [] ⟨by simp, List.Pairwise.nil⟩ hgres
      simpa using h
    have hlenQ : (gsGo [r0] rest).length = rest.length := gsGo_length rest [r0]
    have hrest : rest.length + 1 = toDim := by
      rw [hraw] at hlenraw
      simpa using hlenraw
    have hlen : (ComputeRandomUnscaled g fromDim toDim).length = toDim := by
      rw [hM]
      simp [hlenQ]
      omega
    refine ⟨hlen, fun _ => ?_, fun i h1 h2 => ?_, fun i j hj1 hji h2 => ?_⟩
    · rw [hM, hraw]
      rfl
    · obtain ⟨k, rfl⟩ : ∃ k, i = k + 1 := ⟨i - 1, by omega⟩
      have hk : k < (gsGo [r0] rest).length := by rw [hlenQ]; omega
      rw [hM, List.getD_cons_succ, List.getD_eq_getElem _ _ hk]
      exact hON.1 _ (List.getElem_mem _)
    · obtain ⟨k, rfl⟩ : ∃ k, i = k + 1 := ⟨i - 1, by omega⟩
      obtain ⟨m, rfl⟩ : ∃ m, j = m + 1 := ⟨j - 1, by omega⟩
      have hkQ : k < (gsGo [r0] rest).length := by rw [hlenQ]; omega
      have hmQ : m < (gsGo [r0] rest).length := by rw [hlenQ]; omega
      rw [hM, List.getD_cons_succ, List.getD_cons_succ,
          List.getD_eq_getElem _ _ hkQ, List.getD_eq_getElem _ _ hmQ, dotp_comm]
      have hpair := List.pairwise_iff_get.mp hON.2 ⟨m, hmQ⟩ ⟨k, hkQ⟩
        (Fin.mk_lt_mk.mpr (by omega))
      simpa [List.get_eq_getElem] using hpair

/-- Claim C2 counterexample: with raw draws giving row `0 = (2, 0)` and raw
row `1 = (1, 1)`, the produced row `1` has dot product `-6/√10 ≈ -1.897`
with row `0` — not within any floating tolerance (e.g. `10^-9`) of `0`.
Subtracting `(row·row0)·row0` only orthogonalizes against a *unit* row, and
row `0` is never normalized. -/
theorem ComputeRandom_row0_not_orthogonal_cex :
    dotp ((ComputeRandomUnscaled cexDraws 2 2).getD 1 0)
         ((ComputeRandomUnscaled cexDraws 2 2).getD 0 0) = -6 / Real.sqrt 10 ∧
    -6 / Real.sqrt 10 < -(1 / 10 ^ 9) := by
  set r0 : Vec 2 := fun j => cexDraws (0 * 2 + j.val) with hr0
  set r1 : Vec 2 := fun j => cexDraws (1 * 2 + j.val) with hr1
  have hraw : rawRows cexDraws 2 2 = [r0, r1] := by
    unfold rawRows
    rw [show List.range 2 = [0, 1] from by decide]
    rfl
  have h10 : dotp r1 r0 = 2 := by
    simp only [hr0, hr1]
    norm_num [dotp, Fin.sum_univ_two, cexDraws]
  have h00 : dotp r0 r0 = 4 := by
    simp only [hr0]
    norm_num [dotp, Fin.sum_univ_two, cexDraws]
  have h11 : dotp r1 r1 = 2 := by
    simp only [hr1]
    norm_num [dotp, Fin.sum_univ_two, cexDraws]
  have hsub : dotp (subProj r1 r0) r0 = -6 := by
    rw [dotp_subProj_left, h10, h00]
    norm_num
  have hself : dotp (subProj r1 r0) (subProj r1 r0) = 10 := by
    rw [dotp_subProj_left, dotp_comm r1 (subProj r1 r0), dotp_subProj_left,
        dotp_comm r0 (subProj r1 r0), dotp_subProj_left, h10, h11, h00,
        dotp_comm r0 r1, h10]
    norm_num
  have hM : ComputeRandomUnscaled cexDraws 2 2 = [r0, gsStep [r0] r1] := by
    unfold ComputeRandomUnscaled
    rw [hraw]
    rfl
  constructor
  · rw [hM]
    show dotp (gsStep [r0] r1) r0 = -6 / Real.sqrt 10
    show dotp (normalizeRow (List.foldl subProj r1 [r0])) r0 = -6 / Real.sqrt 10
    rw [show List.foldl subProj r1 [r0] = subProj r1 r0 from rfl,
        dotp_normalize_left, hself, hsub]
    ring
  · have hs10 : (0 : ℝ) < Real.sqrt 10 := Real.sqrt_pos.mpr (by norm_num)
    have h4 : Real.sqrt 10 < 4 :=
      (Real.sqrt_lt' (by norm_num : (0:ℝ) < 4)).mpr (by norm_num : (10:ℝ) < 4 ^ 2)
    have hdiv : (6:ℝ)/4 < 6/Real.sqrt 10 := div_lt_div_of_pos_left (by norm_num) hs10 h4
    have h19 : (1:ℝ)/10^9 < 6/4 := by norm_num
    calc (-6)/Real.sqrt 10 = -(6/Real.sqrt 10) := by rw [neg_div]
      _ < -(1/10^9) := by linarith

/-- Claim C2 witness: the amended theorem applied to the `3 × 3` identity
draws; rows `1` and `2` of the result are unit and mutually orthogonal. -/
theorem ComputeRandom_rows_orthonormal_w :
    dotp ((ComputeRandomUnscaled wDraws 3 3).getD 2 0)
         ((ComputeRandomUnscaled wDraws 3 3).getD 1 0) = 0 ∧
    dotp ((ComputeRandomUnscaled wDraws 3 3).getD 1 0)
         ((ComputeRandomUnscaled wDraws 3 3).getD 1 0) = 1 := by
  set e0 : Vec 3 := fun j => wDraws (0 * 3 + j.val) with he0
  set e1 : Vec 3 := fun j => wDraws (1 * 3 + j.val) with he1
  set e2 : Vec 3 := fun j => wDraws (2 * 3 + j.val) with he2
  have hraw : rawRows wDraws 3 3 = [e0, e1, e2] := by
    unfold rawRows
    rw [show List.range 3 = [0, 1, 2] from by decide]
    rfl
  have h10 : dotp e1 e0 = 0 := by
    simp only [he0, he1]
    norm_num [dotp, Fin.sum_univ_three, wDraws]
  have h11 : dotp e1 e1 = 1 := by
    simp only [he1]
    norm_num [dotp, Fin.sum_univ_three, wDraws]
  have h20 : dotp e2 e0 = 0 := by
    simp only [he0, he2]
    norm_num [dotp, Fin.sum_univ_three, wDraws]
  have h21 : dotp e2 e1 = 0 := by
    simp only [he1, he2]
    norm_num [dotp, Fin.sum_univ_three, wDraws]
  have h22 : dotp e2 e2 = 1 := by
    simp only [he2]
    norm_num [dotp, Fin.sum_univ_three, wDraws]
  have hf1 : List.foldl subProj e1 [e0] = e1 := by
    rw [List.foldl_cons, List.foldl_nil, subProj_of_dotp_eq_zero e1 e0 h10]
  have hstep1 : gsStep [e0] e1 = e1 := by
    unfold gsStep
    rw [hf1, normalizeRow_of_unit e1 h11]
  have hf2 : List.foldl subProj e2 [e0, e1] = e2 := by
    rw [List.foldl_cons, List.foldl_cons, List.foldl_nil,
        subProj_of_dotp_eq_zero e2 e0 h20, subProj_of_dotp_eq_zero e2 e1 h21]
  have hres : ResidOk (rawRows wDraws 3 3) := by
    rw [hraw]
    show gsResidOk [e0] [e1, e2]
    refine ⟨by rw [hf1, h11]; norm_num, ?_, trivial⟩
    show dotp (List.foldl subProj e2 ([e0] ++ [gsStep [e0] e1]))
        (List.foldl subProj e2 ([e0] ++ [gsStep [e0] e1])) ≠ 0
    rw [hstep1, show [e0] ++ [e1] = [e0, e1] from rfl, hf2, h22]
    norm_num
  exact ⟨(ComputeRandom_rows_orthonormal wDraws 3 3 hres).2.2.2 2 1 le_rfl
          Nat.one_lt_two (by norm_num),
         (ComputeRandom_rows_orthonormal wDraws 3 3 hres).2.2.1 1 le_rfl
          (by norm_num : 1 < 3)⟩

end OmplProj
